import Mathlib

/-!
Shallow embedding of `textParser2.py` (Discord chat-log parser).

Strings are modelled as `List Char`.  Every Python regex operation used by the
source is specialised into an executable Lean function that reimplements the
exact leftmost / greedy / lazy backtracking behaviour of that one pattern
(character classes are modelled over ASCII).  All recursion is structural
(with an explicit fuel argument where the Python scan restarts at a computed
position), so every definition evaluates by kernel reduction.
-/

/-- ASCII model of Python's whitespace class used by both the regex class
and by `str.strip`. -/
def isWsC (c : Char) : Bool :=
  c = ' ' || c = '\t' || c = '\n' || c = '\r' || c = '\x0b' || c = '\x0c'

/-- `isPfx p s` holds when `p` is a prefix of `s` (Boolean, executable). -/
def isPfx : List Char → List Char → Bool
  | [], _ => true
  | _ :: _, [] => false
  | a :: as, b :: bs => a = b && isPfx as bs

/-- `occursIn m s` holds when `m` occurs as a contiguous substring of `s`. -/
def occursIn (m : List Char) : List Char → Bool
  | [] => isPfx m []
  | c :: r => isPfx m (c :: r) || occursIn m r

/-- Strip the literal `p` from the front of `s`, failing if absent. -/
def dropPfx : List Char → List Char → Option (List Char)
  | [], s => some s
  | _ :: _, [] => none
  | a :: as, b :: bs => if a = b then dropPfx as bs else none

/-- Python `str.split('\n')` (always returns at least one piece). -/
def splitNl : List Char → List (List Char)
  | [] => [[]]
  | c :: r =>
    if c = '\n' then [] :: splitNl r
    else
      match splitNl r with
      | [] => [[c]]
      | l :: ls => (c :: l) :: ls

/-- Python `'\n'.join(…)`. -/
def joinNl : List (List Char) → List Char
  | [] => []
  | [l] => l
  | l :: ls => l ++ '\n' :: joinNl ls

/-- Remove a maximal run of trailing whitespace (the right half of
`str.strip`). -/
def rstripWs : List Char → List Char
  | [] => []
  | c :: r =>
    match rstripWs r with
    | [] => if isWsC c then [] else [c]
    | t => c :: t

/-- Python `str.strip()`: drop leading and trailing whitespace. -/
def stripWs (s : List Char) : List Char :=
  rstripWs (s.dropWhile isWsC)

/-- Python `str.split(sep)` for a non-empty separator: left-to-right,
non-overlapping occurrences split the string (fuel-indexed scan). -/
def splitSepF (sep : List Char) : Nat → List Char → List (List Char)
  | 0, s => [s]
  | f + 1, s =>
    match s with
    | [] => [[]]
    | c :: r =>
      if isPfx sep (c :: r) then
        [] :: splitSepF sep f (List.drop sep.length (c :: r))
      else
        match splitSepF sep f r with
        | [] => [[c]]
        | l :: ls => (c :: l) :: ls

def splitSepStr (sep s : List Char) : List (List Char) :=
  splitSepF sep s.length s

/- ### Section markers and literals of the source -/

def mAtt : List Char := ['\x7b', 'A', 't', 't', 'a', 'c', 'h', 'm', 'e', 'n', 't', 's', '\x7d']

def mEmb : List Char := ['\x7b', 'E', 'm', 'b', 'e', 'd', '\x7d']

def mRea : List Char := ['\x7b', 'R', 'e', 'a', 'c', 't', 'i', 'o', 'n', 's', '\x7d']

def httpsLit : List Char := ['h', 't', 't', 'p', 's', ':', '/', '/']

def guildLit : List Char := ['G', 'u', 'i', 'l', 'd', ':', ' ']

def channelLit : List Char := ['C', 'h', 'a', 'n', 'n', 'e', 'l', ':', ' ']

def topicLit : List Char := ['T', 'o', 'p', 'i', 'c', ':', ' ']

def sepTok : List Char := [' ', '/', ' ']

/- ### Data model (one record per message, as built by the source) -/

structure DocMetadata where
  guild : Option (List Char)
  channel : Option (List Char)
  topic : Option (List Char)
deriving DecidableEq

structure MsgMetadata where
  attachments : List (List Char)
  embeds : List (List Char)
  reactions : List (List Char)
  channel : Option (List Char)
  guild : Option (List Char)
deriving DecidableEq

structure MessageRecord where
  timestamp : List Char
  author : List Char
  text : List Char
  metadata : MsgMetadata
deriving DecidableEq

/- ### Header Extractor
`re.search(r'==+\nGuild: (.*)\nChannel: (.*)\nTopic: (.*)\n==+', content)` -/

/-- The `(.*)` group of the header regex: `.` cannot cross a newline, the
greedy group must reach the line end so that the following `\n` of the
pattern matches; fails when the rest of the text holds no newline. -/
def lineTo (s : List Char) : Option (List Char × List Char) :=
  match s.dropWhile (fun c => c ≠ '\n') with
  | '\n' :: r => some (s.takeWhile (fun c => c ≠ '\n'), r)
  | _ => none

/-- Try the header banner pattern anchored at the current position. -/
def headerAt (s : List Char) : Option (List Char × List Char × List Char) :=
  match s with
  | '=' :: '=' :: r =>
    match r.dropWhile (fun c => c = '=') with
    | '\n' :: t0 =>
      match dropPfx guildLit t0 with
      | some t1 =>
        match lineTo t1 with
        | some (g, t2) =>
          match dropPfx channelLit t2 with
          | some t3 =>
            match lineTo t3 with
            | some (ch, t4) =>
              match dropPfx topicLit t4 with
              | some t5 =>
                match lineTo t5 with
                | some (tp, t6) =>
                  match t6 with
                  | '=' :: '=' :: _ => some (g, ch, tp)
                  | _ => none
                | none => none
              | none => none
            | none => none
          | none => none
        | none => none
      | none => none
    | _ => none
  | _ => none

/-- `re.search` of the banner: leftmost position where the pattern matches. -/
def headerSearch : List Char → Option (List Char × List Char × List Char)
  | [] => none
  | c :: r =>
    match headerAt (c :: r) with
    | some h => some h
    | none => headerSearch r

/-- `header_match.group(2).split(' / ')[-1]`. -/
def chanLast (ch : List Char) : List Char :=
  (splitSepStr sepTok ch).getLastD []

/-- The `metadata` dict built from the optional header match. -/
def docMeta (content : List Char) : DocMetadata :=
  match headerSearch content with
  | some (g, ch, t) => ⟨some g, some (chanLast ch), some t⟩
  | none => ⟨none, none, none⟩

/- ### Message Segmenter
`r'\[(\d+/\d+/\d+ \d+:\d+ [AP]M)\] ([^\n]+)\n(.*?)(?=\[\d+/\d+/\d+ \d+:\d+ [AP]M\]|\Z)'`
with `re.DOTALL`, iterated by `re.finditer`. -/

/-- `\d+` followed by a required non-digit continuation: the greedy run is
maximal (shorter runs leave a digit where the next literal is expected). -/
def digits1 (s : List Char) : Option (List Char) :=
  match s with
  | c :: r => if c.isDigit then some (r.dropWhile Char.isDigit) else none
  | [] => none

/-- The timestamp core `\d+/\d+/\d+ \d+:\d+ [AP]M`; returns the rest of the
input after the matched span. -/
def tsCore (s : List Char) : Option (List Char) :=
  match digits1 s with
  | some ('/' :: s2) =>
    match digits1 s2 with
    | some ('/' :: s4) =>
      match digits1 s4 with
      | some (' ' :: s6) =>
        match digits1 s6 with
        | some (':' :: s8) =>
          match digits1 s8 with
          | some (' ' :: c :: 'M' :: s10) =>
            if c = 'A' ∨ c = 'P' then some s10 else none
          | _ => none
        | _ => none
      | _ => none
    | _ => none
  | _ => none

/-- The lookahead `\[\d+/\d+/\d+ \d+:\d+ [AP]M\]` tested at a position. -/
def delimAt (s : List Char) : Bool :=
  match s with
  | '[' :: s1 =>
    match tsCore s1 with
    | some (']' :: _) => true
    | _ => false
  | _ => false

/-- The lazy `(.*?)(?=delim|\Z)` group: consume as little as possible until
the delimiter lookahead or the end of input; returns (group, rest). -/
def bodyScan : List Char → List Char × List Char
  | [] => ([], [])
  | c :: r =>
    if delimAt (c :: r) then ([], c :: r)
    else
      let p := bodyScan r
      (c :: p.1, p.2)

structure RawMsg where
  ts : List Char
  author : List Char
  body : List Char
deriving DecidableEq

/-- One attempt of the full message pattern at the current position: the
author group `[^\n]+` must be non-empty and be followed by a newline. -/
def msgAt (s : List Char) : Option (RawMsg × List Char) :=
  match s with
  | '[' :: s1 =>
    match tsCore s1 with
    | some (']' :: ' ' :: s3) =>
      match s3.takeWhile (fun c => c ≠ '\n'), s3.dropWhile (fun c => c ≠ '\n') with
      | [], _ => none
      | _ :: _, [] => none
      | a :: as, '\n' :: s4 =>
        some (⟨s1.take (s1.length - (']' :: ' ' :: s3).length), a :: as,
          (bodyScan s4).1⟩, (bodyScan s4).2)
      | _ :: _, _ :: _ => none
    | _ => none
  | _ => none

/-- `re.finditer`: scan left to right, emit non-overlapping matches, resume
after each match (fuel-indexed; fuel `s.length` always suffices). -/
def findMsgsF : Nat → List Char → List RawMsg
  | 0, _ => []
  | _ + 1, [] => []
  | f + 1, c :: r =>
    match msgAt (c :: r) with
    | some (m, rest) => m :: findMsgsF f rest
    | none => findMsgsF f r

def findMsgs (s : List Char) : List RawMsg :=
  findMsgsF s.length s

/- ### Timestamp normalisation
`datetime.strptime(ts, '%m/%d/%Y %I:%M %p')` then `.isoformat()`, with
`ValueError` falling back to the original literal. -/

structure DateT where
  y : Nat
  m : Nat
  d : Nat
  hh : Nat
  mi : Nat
deriving DecidableEq

/-- `%m` / `%I` (CPython pattern `1[0-2]|0[1-9]|[1-9]`) followed by a
required separator literal; alternatives cannot overlap because the
separator is not a digit. -/
def pOneTwo (sep : Char) (s : List Char) : Option (Nat × List Char) :=
  match s with
  | '1' :: c :: r =>
    if '0' ≤ c ∧ c ≤ '2' then
      match r with
      | c2 :: r2 => if c2 = sep then some (10 + (c.toNat - 48), r2) else none
      | [] => none
    else if c = sep then some (1, r) else none
  | '0' :: c :: r =>
    if '1' ≤ c ∧ c ≤ '9' then
      match r with
      | c2 :: r2 => if c2 = sep then some (c.toNat - 48, r2) else none
      | [] => none
    else none
  | c :: c2 :: r =>
    if ('1' ≤ c ∧ c ≤ '9') ∧ c2 = sep then some (c.toNat - 48, r) else none
  | _ => none

/-- `%d` (CPython pattern `3[01]|[12]\d|0[1-9]|[1-9]`) followed by `/`. -/
def pDay (s : List Char) : Option (Nat × List Char) :=
  match s with
  | '3' :: c :: r =>
    if c = '0' ∨ c = '1' then
      match r with
      | '/' :: r2 => some (30 + (c.toNat - 48), r2)
      | _ => none
    else if c = '/' then some (3, r) else none
  | '0' :: c :: r =>
    if '1' ≤ c ∧ c ≤ '9' then
      match r with
      | '/' :: r2 => some (c.toNat - 48, r2)
      | _ => none
    else none
  | c :: c2 :: r =>
    if (c = '1' ∨ c = '2') ∧ c2.isDigit then
      match r with
      | '/' :: r2 => some (10 * (c.toNat - 48) + (c2.toNat - 48), r2)
      | _ => none
    else if ('1' ≤ c ∧ c ≤ '9') ∧ c2 = '/' then some (c.toNat - 48, r) else none
  | _ => none

/-- `%Y` (exactly four digits) followed by a space. -/
def pYear (s : List Char) : Option (Nat × List Char) :=
  match s with
  | a :: b :: c :: d :: ' ' :: r =>
    if a.isDigit ∧ b.isDigit ∧ c.isDigit ∧ d.isDigit then
      some (1000 * (a.toNat - 48) + 100 * (b.toNat - 48) + 10 * (c.toNat - 48) + (d.toNat - 48), r)
    else none
  | _ => none

/-- `%M` (CPython pattern `[0-5]\d|\d`) followed by a space. -/
def pMin (s : List Char) : Option (Nat × List Char) :=
  match s with
  | c :: d :: r =>
    if ('0' ≤ c ∧ c ≤ '5') ∧ d.isDigit then
      match r with
      | ' ' :: r2 => some (10 * (c.toNat - 48) + (d.toNat - 48), r2)
      | _ => none
    else if c.isDigit ∧ d = ' ' then some (c.toNat - 48, r) else none
  | _ => none

/-- `%p` (`AM|PM`, case-insensitive); `true` means PM. -/
def pAmPm (s : List Char) : Option (Bool × List Char) :=
  match s with
  | c :: m :: r =>
    if (c = 'A' ∨ c = 'a') ∧ (m = 'M' ∨ m = 'm') then some (false, r)
    else if (c = 'P' ∨ c = 'p') ∧ (m = 'M' ∨ m = 'm') then some (true, r)
    else none
  | _ => none

def isLeap (y : Nat) : Bool :=
  y % 4 = 0 && (y % 100 ≠ 0 || y % 400 = 0)

def daysInMonth (y m : Nat) : Nat :=
  if m = 2 then (if isLeap y then 29 else 28)
  else if m = 4 ∨ m = 6 ∨ m = 9 ∨ m = 11 then 30
  else 31

/-- `datetime.strptime(s, '%m/%d/%Y %I:%M %p')` including the constructor's
range validation; `none` models a raised `ValueError`. -/
def strptimeMDY (s : List Char) : Option DateT :=
  match pOneTwo '/' s with
  | none => none
  | some (m, s1) =>
    match pDay s1 with
    | none => none
    | some (d, s2) =>
      match pYear s2 with
      | none => none
      | some (y, s3) =>
        match pOneTwo ':' s3 with
        | none => none
        | some (hI, s4) =>
          match pMin s4 with
          | none => none
          | some (mi, s5) =>
            match pAmPm s5 with
            | some (pm, []) =>
              let hh := if pm then (if hI = 12 then 12 else hI + 12)
                        else (if hI = 12 then 0 else hI)
              if 1 ≤ y ∧ d ≤ daysInMonth y m then some ⟨y, m, d, hh, mi⟩ else none
            | _ => none

def digCh (n : Nat) : Char := Char.ofNat (48 + n)

def pad2 (n : Nat) : List Char := [digCh (n / 10 % 10), digCh (n % 10)]

def pad4 (n : Nat) : List Char :=
  [digCh (n / 1000 % 10), digCh (n / 100 % 10), digCh (n / 10 % 10), digCh (n % 10)]

/-- `datetime.isoformat()` for a whole-minute datetime. -/
def isoOf (t : DateT) : List Char :=
  pad4 t.y ++ '-' :: pad2 t.m ++ '-' :: pad2 t.d ++ 'T' :: pad2 t.hh ++ ':' :: pad2 t.mi ++ [':', '0', '0']

/-- The try/except around `strptime`: ISO form on success, the original
literal on failure. -/
def formatTimestamp (s : List Char) : List Char :=
  match strptimeMDY s with
  | some t => isoOf t
  | none => s

/- ### Field Extractor -/

/-- `\s+` (greedy, at least one) followed by a required non-whitespace
continuation: the maximal run is forced. -/
def wsRun1 (s : List Char) : Option (List Char) :=
  match s with
  | c :: r => if isWsC c then some (r.dropWhile isWsC) else none
  | [] => none

/-- One attempt of `r'{Attachments}\s+(https://[^\n]+)'` at a position;
returns (captured URL, rest after the match). -/
def attAt (s : List Char) : Option (List Char × List Char) :=
  match dropPfx mAtt s with
  | some s1 =>
    match wsRun1 s1 with
    | some s2 =>
      match dropPfx httpsLit s2 with
      | some s3 =>
        match s3.takeWhile (fun c => c ≠ '\n') with
        | [] => none
        | u => some (httpsLit ++ u, s3.dropWhile (fun c => c ≠ '\n'))
      | none => none
    | none => none
  | none => none

/-- `re.finditer` of the attachment pattern over the chunk body. -/
def attScanF : Nat → List Char → List (List Char)
  | 0, _ => []
  | _ + 1, [] => []
  | f + 1, c :: r =>
    match attAt (c :: r) with
    | some (u, rest) => u :: attScanF f rest
    | none => attScanF f r

def extractAtts (b : List Char) : List (List Char) :=
  attScanF b.length b

/-- One attempt of `r'{MARKER}\s+(.*?)(?=\[|\Z)'` (DOTALL) at a position:
greedy whitespace run, then the lazy group stops at the first `[` or at the
end of the string. -/
def sectionAt (mk s : List Char) : Option (List Char) :=
  match dropPfx mk s with
  | some s1 =>
    match wsRun1 s1 with
    | some s2 => some (s2.takeWhile (fun c => c ≠ '['))
    | none => none
  | none => none

/-- `re.search` of a section pattern: leftmost matching position. -/
def sectionSearch (mk : List Char) : List Char → Option (List Char)
  | [] => none
  | c :: r =>
    match sectionAt mk (c :: r) with
    | some g => some g
    | none => sectionSearch mk r

/-- Embeds: `group(1).strip()`, split on newlines, each line stripped,
blank lines dropped. -/
def extractEmbeds (b : List Char) : List (List Char) :=
  match sectionSearch mEmb b with
  | some g => ((splitNl (stripWs g)).map stripWs).filter (fun l => l ≠ [])
  | none => []

/-- Reactions: the group is split unstripped, each line stripped, blank
lines dropped. -/
def extractReactions (b : List Char) : List (List Char) :=
  match sectionSearch mRea b with
  | some g => ((splitNl g).map stripWs).filter (fun l => l ≠ [])
  | none => []

/- ### Cleaned text
Three `re.sub(r'{MARKER}.*?(?=\n\n|\n\[|\Z)', '', body, flags=re.DOTALL)`
passes, then blank-line removal and a final strip. -/

/-- The lookahead `\n\n|\n\[|\Z` tested at a position. -/
def boundaryAt (s : List Char) : Bool :=
  match s with
  | [] => true
  | c :: r =>
    c = '\n' &&
      (match r with
       | d :: _ => d = '\n' || d = '['
       | [] => false)

/-- Advance the lazy `.*?` of a removal pattern up to its boundary. -/
def skipToB : List Char → List Char
  | [] => []
  | c :: r => if boundaryAt (c :: r) then c :: r else skipToB r

/-- `re.sub` of one marker pattern with the empty string (fuel-indexed;
fuel `s.length` always suffices, and fuel `0` is never reached). -/
def subMF (m : List Char) : Nat → List Char → List Char
  | 0, s => s
  | _ + 1, [] => []
  | f + 1, c :: r =>
    if isPfx m (c :: r) then subMF m f (skipToB (List.drop m.length (c :: r)))
    else c :: subMF m f r

def subMarker (m s : List Char) : List Char :=
  subMF m s.length s

/-- The full cleaning pipeline applied to one chunk body. -/
def cleanText (b : List Char) : List Char :=
  let c1 := subMarker mAtt b
  let c2 := subMarker mEmb c1
  let c3 := subMarker mRea c2
  stripWs (joinNl ((splitNl c3).filter (fun l => stripWs l ≠ [])))

/- ### Record Assembler and whole-document parse -/

def mkRecord (md : DocMetadata) (m : RawMsg) : MessageRecord :=
  ⟨formatTimestamp m.ts, m.author, cleanText m.body,
    ⟨extractAtts m.body, extractEmbeds m.body, extractReactions m.body,
      md.channel, md.guild⟩⟩

/-- `parse_discord_data` on an already-read document (file I/O elided). -/
def parseDiscordData (content : List Char) : List MessageRecord × DocMetadata :=
  let md := docMeta content
  ((findMsgs content).map (mkRecord md), md)

/- ### Structured documents used to state segmentation properties -/

/-- A source-level message: the timestamp pieces, the author line remainder
and the raw body text (everything up to the next delimiter). -/
structure SrcMsg where
  d1 : List Char
  d2 : List Char
  d3 : List Char
  hr : List Char
  mi : List Char
  ap : Char
  author : List Char
  body : List Char
deriving DecidableEq

def renderTs (m : SrcMsg) : List Char :=
  m.d1 ++ '/' :: m.d2 ++ '/' :: m.d3 ++ ' ' :: m.hr ++ ':' :: m.mi ++ [' ', m.ap, 'M']

/-- The delimiter line of a message, without its trailing newline. -/
def renderDelimLine (m : SrcMsg) : List Char :=
  '[' :: renderTs m ++ ']' :: ' ' :: m.author

def renderMsg (m : SrcMsg) : List Char :=
  renderDelimLine m ++ '\n' :: m.body

def renderMsgs : List SrcMsg → List Char
  | [] => []
  | m :: rest => renderMsg m ++ renderMsgs rest

def toRaw (m : SrcMsg) : RawMsg :=
  ⟨renderTs m, m.author, m.body⟩

/-- Well-formed timestamp pieces: non-empty digit runs and an `A`/`P` tag. -/
def tsOK (m : SrcMsg) : Prop :=
  m.d1 ≠ [] ∧ m.d1.all Char.isDigit = true ∧
  m.d2 ≠ [] ∧ m.d2.all Char.isDigit = true ∧
  m.d3 ≠ [] ∧ m.d3.all Char.isDigit = true ∧
  m.hr ≠ [] ∧ m.hr.all Char.isDigit = true ∧
  m.mi ≠ [] ∧ m.mi.all Char.isDigit = true ∧
  (m.ap = 'A' ∨ m.ap = 'P')

instance (m : SrcMsg) : Decidable (tsOK m) := by
  unfold tsOK; infer_instance

/-- A well-formed message: valid timestamp pieces, a non-empty
newline-free author, and a body containing no opening bracket. -/
def msgOK (m : SrcMsg) : Prop :=
  tsOK m ∧ m.author ≠ [] ∧ m.author.all (fun c => c ≠ '\n') = true ∧
  m.body.all (fun c => c ≠ '[') = true

instance (m : SrcMsg) : Decidable (msgOK m) := by
  unfold msgOK; infer_instance

/-- Number of lines of the document that begin with a bracketed
timestamp delimiter. -/
def delimLineCount (d : List Char) : Nat :=
  ((splitNl d).filter (fun l => delimAt l)).length

/- ### Basic lemmas on prefixes and substring occurrence -/

theorem isPfx_self_app (p x : List Char) : isPfx p (p ++ x) = true := by
  induction p with
  | nil => simp [isPfx]
  | cons a as ih => simp [isPfx, ih]

theorem dropPfx_self_app (p x : List Char) : dropPfx p (p ++ x) = some x := by
  induction p with
  | nil => simp [dropPfx]
  | cons a as ih => simp [dropPfx, ih]

theorem dropPfx_eq (p s r : List Char) (h : dropPfx p s = some r) : s = p ++ r := by
  induction p generalizing s with
  | nil => simp [dropPfx] at h; simp [h]
  | cons a as ih =>
    cases s with
    | nil => simp [dropPfx] at h
    | cons b bs =>
      by_cases hab : a = b
      · subst hab
        simp [dropPfx] at h
        simpa using ih bs h
      · simp [dropPfx, hab] at h

theorem isPfx_iff_dropPfx (p s : List Char) :
    isPfx p s = true ↔ ∃ r, dropPfx p s = some r := by
  induction p generalizing s with
  | nil => simp [isPfx, dropPfx]
  | cons a as ih =>
    cases s with
    | nil => simp [isPfx, dropPfx]
    | cons b bs =>
      by_cases hab : a = b
      · subst hab; simp [isPfx, dropPfx, ih]
      · simp [isPfx, dropPfx, hab]

theorem isPfx_of_isPfx_isPfx (m u s : List Char) (h1 : isPfx u s = true)
    (h2 : isPfx m u = true) : isPfx m s = true := by
  induction m generalizing u s with
  | nil => simp [isPfx]
  | cons a as ih =>
    cases u with
    | nil => simp [isPfx] at h2
    | cons b bs =>
      cases s with
      | nil => simp [isPfx] at h1
      | cons c cs =>
        simp [isPfx] at h1 h2 ⊢
        exact ⟨h1.1 ▸ h2.1, ih bs cs h1.2 h2.2⟩

theorem occursIn_nil (m : List Char) (hm : m ≠ []) : occursIn m [] = false := by
  cases m with
  | nil => exact absurd rfl hm
  | cons a as => simp [occursIn, isPfx]

theorem occursIn_cons (m : List Char) (c : Char) (r : List Char) :
    occursIn m (c :: r) = (isPfx m (c :: r) || occursIn m r) := rfl

theorem occursIn_of_isPfx (m s : List Char) (h : isPfx m s = true) :
    occursIn m s = true := by
  cases s with
  | nil => cases m with
    | nil => simp [occursIn, isPfx]
    | cons a as => simp [isPfx] at h
  | cons c r => simp [occursIn_cons, h]

theorem occursIn_drop_of_occursIn (m s : List Char) (n : Nat)
    (h : occursIn m (s.drop n) = true) : occursIn m s = true := by
  induction n generalizing s with
  | zero => simpa using h
  | succ k ih =>
    cases s with
    | nil => simpa using h
    | cons c r =>
      have : occursIn m (r.drop k) = true := by simpa using h
      have := ih r (by simpa using h)
      simp [occursIn_cons, this]

/- ### takeWhile / dropWhile over appended runs -/

theorem dwAllTrue (p : Char → Bool) (l : List Char) (h : l.all p = true) :
    l.dropWhile p = [] := by
  induction l with
  | nil => rfl
  | cons c r ih =>
    simp only [List.all_cons, Bool.and_eq_true] at h
    simp [List.dropWhile, h.1, ih h.2]

theorem twAllTrue (p : Char → Bool) (l : List Char) (h : l.all p = true) :
    l.takeWhile p = l := by
  induction l with
  | nil => rfl
  | cons c r ih =>
    simp only [List.all_cons, Bool.and_eq_true] at h
    simp [List.takeWhile, h.1, ih h.2]

theorem dwApp (p : Char → Bool) (l : List Char) (c : Char) (t : List Char)
    (hl : l.all p = true) (hc : p c = false) :
    (l ++ c :: t).dropWhile p = c :: t := by
  induction l with
  | nil => simp [List.dropWhile, hc]
  | cons a as ih =>
    simp only [List.all_cons, Bool.and_eq_true] at hl
    simp [List.dropWhile, hl.1, ih hl.2]

theorem twApp (p : Char → Bool) (l : List Char) (c : Char) (t : List Char)
    (hl : l.all p = true) (hc : p c = false) :
    (l ++ c :: t).takeWhile p = l := by
  induction l with
  | nil => simp [List.takeWhile, hc]
  | cons a as ih =>
    simp only [List.all_cons, Bool.and_eq_true] at hl
    simp [List.takeWhile, hl.1, ih hl.2]

theorem takeLenApp (a b : List Char) : (a ++ b).take a.length = a := by
  induction a with
  | nil => rfl
  | cons c r ih => simp [ih]

theorem dropLenApp (a b : List Char) : (a ++ b).drop a.length = b := by
  induction a with
  | nil => rfl
  | cons c r ih => simp [ih]

/- ### Line splitting and joining -/

theorem splitNl_ne_nil (s : List Char) : splitNl s ≠ [] := by
  cases s with
  | nil => simp [splitNl]
  | cons c r =>
    by_cases hc : c = '\n'
    · simp [splitNl, hc]
    · simp only [splitNl, hc, if_false]
      cases splitNl r <;> simp

theorem splitNl_append (a b : List Char) :
    splitNl (a ++ '\n' :: b) = splitNl a ++ splitNl b := by
  induction a with
  | nil => simp [splitNl]
  | cons c r ih =>
    by_cases hc : c = '\n'
    · simp [splitNl, hc, ih]
    · have hne := splitNl_ne_nil r
      cases hsp : splitNl r with
      | nil => exact absurd hsp hne
      | cons l ls =>
        simp only [List.cons_append, splitNl, hc, if_false, List.append_eq]
        rw [ih, hsp]
        simp

theorem joinNl_splitNl (s : List Char) : joinNl (splitNl s) = s := by
  induction s with
  | nil => simp [splitNl, joinNl]
  | cons c r ih =>
    by_cases hc : c = '\n'
    · subst hc
      simp only [splitNl, if_pos rfl]
      have hne := splitNl_ne_nil r
      cases hsp : splitNl r with
      | nil => exact absurd hsp hne
      | cons l ls =>
        rw [hsp] at ih
        simp [joinNl, ih]
    · simp only [splitNl, hc, if_false]
      have hne := splitNl_ne_nil r
      cases hsp : splitNl r with
      | nil => exact absurd hsp hne
      | cons l ls =>
        rw [hsp] at ih
        cases ls with
        | nil => simp [joinNl] at ih ⊢; simp [ih]
        | cons l2 ls2 => simp [joinNl] at ih ⊢; simp [ih]

theorem splitNl_all (p : Char → Bool) (x : List Char) (h : x.all p = true) :
    ∀ l ∈ splitNl x, l.all p = true := by
  induction x with
  | nil => intro l hl; simp [splitNl] at hl; simp [hl]
  | cons c r ih =>
    simp only [List.all_cons, Bool.and_eq_true] at h
    intro l hl
    by_cases hc : c = '\n'
    · simp only [splitNl, hc, if_pos rfl] at hl
      rcases List.mem_cons.mp hl with h1 | h1
      · simp [h1]
      · exact ih h.2 l h1
    · simp only [splitNl, hc, if_false] at hl
      have hne := splitNl_ne_nil r
      cases hsp : splitNl r with
      | nil => exact absurd hsp hne
      | cons l0 ls0 =>
        rw [hsp] at hl
        rcases List.mem_cons.mp hl with h1 | h1
        · subst h1
          have : l0 ∈ splitNl r := by rw [hsp]; exact List.mem_cons_self _ _
          have := ih h.2 l0 this
          simp [List.all_cons, h.1, this]
        · exact ih h.2 l (by rw [hsp]; exact List.mem_cons_of_mem _ h1)

theorem splitNl_nlFree (x : List Char) (h : x.all (fun c => c ≠ '\n') = true) :
    splitNl x = [x] := by
  induction x with
  | nil => rfl
  | cons c r ih =>
    simp only [List.all_cons, Bool.and_eq_true] at h
    have hc : c ≠ '\n' := by simpa using h.1
    simp [splitNl, hc, ih h.2]

/- ### Substring occurrence across newlines, joins and strips -/

theorem isPfx_nl_app (t l rest : List Char) (ht : t.all (fun c => c ≠ '\n') = true) :
    isPfx t (l ++ '\n' :: rest) = isPfx t l := by
  induction t generalizing l with
  | nil => simp [isPfx]
  | cons a as ih =>
    simp only [List.all_cons, Bool.and_eq_true] at ht
    have ha : a ≠ '\n' := by simpa using ht.1
    cases l with
    | nil => simp [isPfx, ha]
    | cons b bs =>
      simp [isPfx, ih bs ht.2]

theorem occursIn_nl_split (m l rest : List Char) (hm : m ≠ [])
    (hnl : m.all (fun c => c ≠ '\n') = true) :
    occursIn m (l ++ '\n' :: rest) = (occursIn m l || occursIn m rest) := by
  induction l with
  | nil =>
    simp only [List.nil_append, occursIn_cons]
    have h1 : isPfx m ('\n' :: rest) = false := by
      cases m with
      | nil => exact absurd rfl hm
      | cons a as =>
        simp only [List.all_cons, Bool.and_eq_true] at hnl
        have : a ≠ '\n' := by simpa using hnl.1
        simp [isPfx, this]
    rw [h1, occursIn_nil m hm]
  | cons c r ih =>
    simp only [List.cons_append, occursIn_cons, ih]
    have h2 : isPfx m (c :: (r ++ '\n' :: rest)) = isPfx m (c :: r) := by
      simpa using isPfx_nl_app m (c :: r) rest hnl
    rw [h2]
    cases isPfx m (c :: r) <;> cases occursIn m r <;> cases occursIn m rest <;> simp

theorem occursIn_joinNl (m : List Char) (ls : List (List Char)) (hm : m ≠ [])
    (hnl : m.all (fun c => c ≠ '\n') = true) :
    occursIn m (joinNl ls) = ls.any (fun l => occursIn m l) := by
  induction ls with
  | nil => simp [joinNl, occursIn_nil m hm]
  | cons l ls2 ih =>
    cases ls2 with
    | nil => simp [joinNl]
    | cons l2 ls3 =>
      simp only [joinNl]
      rw [occursIn_nl_split m l (joinNl (l2 :: ls3)) hm hnl, ih]
      simp

theorem occursIn_dropWhile (m : List Char) (p : Char → Bool) (s : List Char)
    (h : occursIn m (s.dropWhile p) = true) : occursIn m s = true := by
  induction s with
  | nil => simpa [List.dropWhile] using h
  | cons c r ih =>
    by_cases hp : p c = true
    · simp only [List.dropWhile, hp] at h
      simp [occursIn_cons, ih h]
    · simp only [List.dropWhile, hp] at h
      simpa using h

theorem rstripWs_isPfx (s : List Char) : isPfx (rstripWs s) s = true := by
  induction s with
  | nil => simp [rstripWs, isPfx]
  | cons c r ih =>
    simp only [rstripWs]
    cases ht : rstripWs r with
    | nil =>
      by_cases hw : isWsC c = true
      · simp [hw, isPfx]
      · simp [hw, isPfx]
    | cons a as =>
      rw [ht] at ih
      simp [isPfx, ih]

theorem occursIn_rstripWs (m s : List Char) (h : occursIn m (rstripWs s) = true) :
    occursIn m s = true := by
  induction s with
  | nil => simpa [rstripWs] using h
  | cons c r ih =>
    rw [occursIn_cons]
    simp only [rstripWs] at h
    cases ht : rstripWs r with
    | nil =>
      rw [ht] at h
      by_cases hw : isWsC c = true
      · rw [if_pos hw] at h
        cases m with
        | nil => simp [isPfx]
        | cons a as => simp [occursIn, isPfx] at h
      · rw [if_neg hw] at h
        rcases Bool.or_eq_true_iff.mp h with h1 | h1
        · have hp : isPfx m (c :: r) = true :=
            isPfx_of_isPfx_isPfx m [c] (c :: r) (by simp [isPfx]) h1
          simp [hp]
        · cases m with
          | nil => simp [isPfx]
          | cons a as => simp [occursIn, isPfx] at h1
    | cons a as =>
      rw [ht] at h
      rw [occursIn_cons] at h
      rcases Bool.or_eq_true_iff.mp h with h1 | h1
      · have hp : isPfx (c :: a :: as) (c :: r) = true := by
          have h3 := rstripWs_isPfx r
          rw [ht] at h3
          simp [isPfx, h3]
        have h4 := isPfx_of_isPfx_isPfx m (c :: a :: as) (c :: r) hp h1
        simp [h4]
      · have h5 := ih (by rw [ht]; exact h1)
        simp [h5]

theorem occursIn_stripWs (m s : List Char) (h : occursIn m (stripWs s) = true) :
    occursIn m s = true := by
  unfold stripWs at h
  exact occursIn_dropWhile m isWsC s (occursIn_rstripWs m _ h)

/- ### Marker removal (`re.sub`) never leaves or creates a marker -/

theorem boundaryAt_false_cons (c : Char) (r : List Char) (hc : ¬c = '\n') :
    boundaryAt (c :: r) = false := by
  simp [boundaryAt, hc]

theorem boundaryAt_shape (u : List Char) (h : boundaryAt u = true) :
    u = [] ∨ ∃ v, u = '\n' :: v := by
  cases u with
  | nil => exact Or.inl rfl
  | cons c r =>
    by_cases hc : c = '\n'
    · exact Or.inr ⟨r, by rw [hc]⟩
    · rw [boundaryAt_false_cons c r hc] at h
      exact absurd h (by simp)

theorem skipToB_boundary (x : List Char) : boundaryAt (skipToB x) = true := by
  induction x with
  | nil => simp [skipToB, boundaryAt]
  | cons c r ih =>
    by_cases hb : boundaryAt (c :: r) = true
    · simp [skipToB, hb]
    · simp only [skipToB, if_neg hb]
      exact ih

theorem skipToB_len (x : List Char) : (skipToB x).length ≤ x.length := by
  induction x with
  | nil => simp [skipToB]
  | cons c r ih =>
    by_cases hb : boundaryAt (c :: r) = true
    · simp [skipToB, hb]
    · simp only [skipToB, if_neg hb]
      exact Nat.le_succ_of_le ih

theorem occursIn_false_tail (m : List Char) (c : Char) (r : List Char)
    (h : occursIn m (c :: r) = false) : occursIn m r = false := by
  rw [occursIn_cons] at h
  exact (Bool.or_eq_false_iff.mp h).2

theorem occursIn_skipToB (m x : List Char) (h : occursIn m x = false) :
    occursIn m (skipToB x) = false := by
  induction x with
  | nil => simpa [skipToB] using h
  | cons c r ih =>
    by_cases hb : boundaryAt (c :: r) = true
    · simpa [skipToB, hb] using h
    · simp only [skipToB, if_neg hb]
      exact ih (occursIn_false_tail m c r h)

theorem occursIn_drop_false (m s : List Char) (n : Nat)
    (h : occursIn m s = false) : occursIn m (s.drop n) = false := by
  cases hx : occursIn m (s.drop n) with
  | false => rfl
  | true => rw [occursIn_drop_of_occursIn m s n hx] at h; exact absurd h (by simp)

theorem subMF_nil (m : List Char) (f : Nat) : subMF m f [] = [] := by
  cases f <;> rfl

theorem subMF_boundary_shape (m : List Char) (f : Nat) (u : List Char)
    (hm : m ≠ []) (hnl : m.all (fun c => c ≠ '\n') = true)
    (hb : boundaryAt u = true) :
    subMF m f u = [] ∨ ∃ w, subMF m f u = '\n' :: w := by
  rcases boundaryAt_shape u hb with h | ⟨v, h⟩
  · subst h; rw [subMF_nil]; exact Or.inl rfl
  · subst h
    cases f with
    | zero => exact Or.inr ⟨v, rfl⟩
    | succ f0 =>
      have hp : isPfx m ('\n' :: v) = false := by
        cases m with
        | nil => exact absurd rfl hm
        | cons a as =>
          simp only [List.all_cons, Bool.and_eq_true] at hnl
          have : a ≠ '\n' := by simpa using hnl.1
          simp [isPfx, this]
      simp only [subMF, hp, Bool.false_eq_true, if_false]
      exact Or.inr ⟨subMF m f0 v, rfl⟩

theorem subMF_pfx_transfer (m2 : List Char) (hm2 : m2 ≠ [])
    (hnl2 : m2.all (fun c => c ≠ '\n') = true) :
    ∀ (f : Nat) (s t : List Char), t ≠ [] → t.all (fun c => c ≠ '\n') = true →
      isPfx t (subMF m2 f s) = true → isPfx t s = true := by
  intro f
  induction f with
  | zero => intro s t _ _ h; simpa [subMF] using h
  | succ f0 ih =>
    intro s t ht hnlt h
    cases s with
    | nil =>
      rw [subMF_nil] at h
      cases t with
      | nil => exact absurd rfl ht
      | cons a as => simp [isPfx] at h
    | cons c r =>
      by_cases hp : isPfx m2 (c :: r) = true
      · rw [show subMF m2 (f0 + 1) (c :: r)
            = subMF m2 f0 (skipToB (List.drop m2.length (c :: r))) by
          simp [subMF, hp]] at h
        rcases subMF_boundary_shape m2 f0 (skipToB (List.drop m2.length (c :: r)))
            hm2 hnl2 (skipToB_boundary _) with hsh | ⟨w, hsh⟩
        · rw [hsh] at h
          cases t with
          | nil => exact absurd rfl ht
          | cons a as => simp [isPfx] at h
        · rw [hsh] at h
          cases t with
          | nil => exact absurd rfl ht
          | cons a as =>
            simp only [List.all_cons, Bool.and_eq_true] at hnlt
            have ha : a ≠ '\n' := by simpa using hnlt.1
            simp [isPfx, ha] at h
      · rw [show subMF m2 (f0 + 1) (c :: r) = c :: subMF m2 f0 r by
          simp [subMF, hp]] at h
        cases t with
        | nil => exact absurd rfl ht
        | cons a as =>
          simp only [isPfx, Bool.and_eq_true] at h ⊢
          refine ⟨h.1, ?_⟩
          cases as with
          | nil => simp [isPfx]
          | cons b bs =>
            simp only [List.all_cons, Bool.and_eq_true] at hnlt
            exact ih r (b :: bs) (by simp)
              (by simp only [List.all_cons, Bool.and_eq_true]; exact hnlt.2) h.2

theorem isPfx_cons_subMF (m m2 : List Char) (hm2 : m2 ≠ [])
    (hnl2 : m2.all (fun c => c ≠ '\n') = true)
    (hnl : m.all (fun c => c ≠ '\n') = true)
    (f : Nat) (c : Char) (r : List Char)
    (hx : isPfx m (c :: subMF m2 f r) = true) : isPfx m (c :: r) = true := by
  cases m with
  | nil => simp [isPfx]
  | cons a as =>
    simp only [isPfx, Bool.and_eq_true] at hx ⊢
    refine ⟨hx.1, ?_⟩
    cases as with
    | nil => simp [isPfx]
    | cons b bs =>
      simp only [List.all_cons, Bool.and_eq_true] at hnl
      exact subMF_pfx_transfer m2 hm2 hnl2 f r (b :: bs) (by simp)
        (by simp only [List.all_cons, Bool.and_eq_true]; exact hnl.2) hx.2

theorem subMF_kills_marker (m : List Char) (hm : m ≠ [])
    (hnl : m.all (fun c => c ≠ '\n') = true) :
    ∀ (f : Nat) (s : List Char), s.length ≤ f →
      occursIn m (subMF m f s) = false := by
  intro f
  induction f with
  | zero =>
    intro s hs
    have : s = [] := List.length_eq_zero.mp (Nat.le_zero.mp hs)
    subst this
    simpa [subMF] using occursIn_nil m hm
  | succ f0 ih =>
    intro s hs
    cases s with
    | nil => rw [subMF_nil]; exact occursIn_nil m hm
    | cons c r =>
      have hlen : (c :: r).length = r.length + 1 := rfl
      by_cases hp : isPfx m (c :: r) = true
      · rw [show subMF m (f0 + 1) (c :: r)
            = subMF m f0 (skipToB (List.drop m.length (c :: r))) by
          simp [subMF, hp]]
        apply ih
        have hm1 : 1 ≤ m.length := by
          cases m with
          | nil => exact absurd rfl hm
          | cons a as => simp
        have h1 := skipToB_len (List.drop m.length (c :: r))
        have h2 : (List.drop m.length (c :: r)).length = (c :: r).length - m.length := by
          simp
        rw [hlen] at hs h2
        omega
      · rw [show subMF m (f0 + 1) (c :: r) = c :: subMF m f0 r by
          simp [subMF, hp]]
        rw [occursIn_cons]
        have hrec : occursIn m (subMF m f0 r) = false := by
          apply ih
          rw [hlen] at hs
          omega
        rw [hrec]
        have hpf : isPfx m (c :: subMF m f0 r) = false := by
          cases hx : isPfx m (c :: subMF m f0 r) with
          | false => rfl
          | true => exact absurd (isPfx_cons_subMF m m hm hnl hnl f0 c r hx) hp
        simp [hpf]

theorem subMF_keeps_absence (m m2 : List Char) (hm : m ≠ [])
    (hnl : m.all (fun c => c ≠ '\n') = true) (hm2 : m2 ≠ [])
    (hnl2 : m2.all (fun c => c ≠ '\n') = true) :
    ∀ (f : Nat) (s : List Char), s.length ≤ f → occursIn m s = false →
      occursIn m (subMF m2 f s) = false := by
  intro f
  induction f with
  | zero =>
    intro s hs h
    have : s = [] := List.length_eq_zero.mp (Nat.le_zero.mp hs)
    subst this
    simpa [subMF] using h
  | succ f0 ih =>
    intro s hs h
    cases s with
    | nil => rw [subMF_nil]; exact occursIn_nil m hm
    | cons c r =>
      have hlen : (c :: r).length = r.length + 1 := rfl
      by_cases hp : isPfx m2 (c :: r) = true
      · rw [show subMF m2 (f0 + 1) (c :: r)
            = subMF m2 f0 (skipToB (List.drop m2.length (c :: r))) by
          simp [subMF, hp]]
        apply ih
        · have hm1 : 1 ≤ m2.length := by
            cases m2 with
            | nil => exact absurd rfl hm2
            | cons a as => simp
          have h1 := skipToB_len (List.drop m2.length (c :: r))
          have h2 : (List.drop m2.length (c :: r)).length = (c :: r).length - m2.length := by
            simp
          rw [hlen] at hs h2
          omega
        · exact occursIn_skipToB m _ (occursIn_drop_false m (c :: r) m2.length h)
      · rw [show subMF m2 (f0 + 1) (c :: r) = c :: subMF m2 f0 r by
          simp [subMF, hp]]
        rw [occursIn_cons]
        have hrec : occursIn m (subMF m2 f0 r) = false := by
          apply ih
          · rw [hlen] at hs; omega
          · exact occursIn_false_tail m c r h
        rw [hrec]
        have hpf : isPfx m (c :: subMF m2 f0 r) = false := by
          cases hx : isPfx m (c :: subMF m2 f0 r) with
          | false => rfl
          | true =>
            have h3 := isPfx_cons_subMF m m2 hm2 hnl2 hnl f0 c r hx
            rw [occursIn_cons, h3] at h
            simp at h
        simp [hpf]

theorem occursIn_clean_pipeline (m c3 : List Char) (hm : m ≠ [])
    (hnl : m.all (fun c => c ≠ '\n') = true) (h : occursIn m c3 = false) :
    occursIn m
      (stripWs (joinNl ((splitNl c3).filter (fun l => stripWs l ≠ [])))) = false := by
  have hlines : ∀ l ∈ splitNl c3, occursIn m l = false := by
    intro l hl
    cases hx : occursIn m l with
    | false => rfl
    | true =>
      have hany : (splitNl c3).any (fun l => occursIn m l) = true :=
        List.any_eq_true.mpr ⟨l, hl, hx⟩
      rw [← occursIn_joinNl m (splitNl c3) hm hnl, joinNl_splitNl] at hany
      rw [hany] at h
      exact absurd h (by simp)
  have hjoin :
      occursIn m (joinNl ((splitNl c3).filter (fun l => stripWs l ≠ []))) = false := by
    rw [occursIn_joinNl m _ hm hnl]
    cases hx : ((splitNl c3).filter (fun l => stripWs l ≠ [])).any
        (fun l => occursIn m l) with
    | false => rfl
    | true =>
      obtain ⟨l, hl, hx2⟩ := List.any_eq_true.mp hx
      rw [hlines l (List.mem_of_mem_filter hl)] at hx2
      exact absurd hx2 (by simp)
  cases hx : occursIn m
      (stripWs (joinNl ((splitNl c3).filter (fun l => stripWs l ≠ [])))) with
  | false => rfl
  | true =>
    have := occursIn_stripWs m _ hx
    rw [hjoin] at this
    exact absurd this (by simp)

theorem cleanText_marker_free (b : List Char) :
    occursIn mAtt (cleanText b) = false ∧ occursIn mEmb (cleanText b) = false ∧
    occursIn mRea (cleanText b) = false := by
  have hA1 : mAtt ≠ [] := by decide
  have hA2 : mAtt.all (fun c => c ≠ '\n') = true := by decide
  have hE1 : mEmb ≠ [] := by decide
  have hE2 : mEmb.all (fun c => c ≠ '\n') = true := by decide
  have hR1 : mRea ≠ [] := by decide
  have hR2 : mRea.all (fun c => c ≠ '\n') = true := by decide
  have hc1A : occursIn mAtt (subMarker mAtt b) = false :=
    subMF_kills_marker mAtt hA1 hA2 b.length b (Nat.le_refl _)
  have hc2A : occursIn mAtt (subMarker mEmb (subMarker mAtt b)) = false :=
    subMF_keeps_absence mAtt mEmb hA1 hA2 hE1 hE2 _ _ (Nat.le_refl _) hc1A
  have hc2E : occursIn mEmb (subMarker mEmb (subMarker mAtt b)) = false :=
    subMF_kills_marker mEmb hE1 hE2 _ _ (Nat.le_refl _)
  have hc3A : occursIn mAtt
      (subMarker mRea (subMarker mEmb (subMarker mAtt b))) = false :=
    subMF_keeps_absence mAtt mRea hA1 hA2 hR1 hR2 _ _ (Nat.le_refl _) hc2A
  have hc3E : occursIn mEmb
      (subMarker mRea (subMarker mEmb (subMarker mAtt b))) = false :=
    subMF_keeps_absence mEmb mRea hE1 hE2 hR1 hR2 _ _ (Nat.le_refl _) hc2E
  have hc3R : occursIn mRea
      (subMarker mRea (subMarker mEmb (subMarker mAtt b))) = false :=
    subMF_kills_marker mRea hR1 hR2 _ _ (Nat.le_refl _)
  refine ⟨?_, ?_, ?_⟩
  · exact occursIn_clean_pipeline mAtt _ hA1 hA2 hc3A
  · exact occursIn_clean_pipeline mEmb _ hE1 hE2 hc3E
  · exact occursIn_clean_pipeline mRea _ hR1 hR2 hc3R

/- ### Segmenter scanning lemmas -/

theorem dwLen (p : Char → Bool) (l : List Char) :
    (l.dropWhile p).length ≤ l.length := by
  induction l with
  | nil => simp [List.dropWhile]
  | cons c r ih =>
    by_cases hp : p c = true
    · simp only [List.dropWhile, hp]
      exact Nat.le_succ_of_le ih
    · simp [List.dropWhile, hp]

theorem dropWhile_all (p q : Char → Bool) (l : List Char) (h : l.all p = true) :
    (l.dropWhile q).all p = true := by
  induction l with
  | nil => simp [List.dropWhile]
  | cons c r ih =>
    simp only [List.all_cons, Bool.and_eq_true] at h
    by_cases hq : q c = true
    · simp only [List.dropWhile, hq]; exact ih h.2
    · simp only [List.dropWhile, hq]
      simp only [Bool.false_eq_true, if_false, List.all_cons, Bool.and_eq_true]
      exact ⟨h.1, h.2⟩

theorem digits1_all (p : Char → Bool) (s r : List Char) (h : digits1 s = some r)
    (hall : s.all p = true) : r.all p = true := by
  cases s with
  | nil => simp [digits1] at h
  | cons c r0 =>
    simp only [digits1] at h
    by_cases hd : c.isDigit = true
    · rw [if_pos hd] at h
      injection h with h
      subst h
      simp only [List.all_cons, Bool.and_eq_true] at hall
      exact dropWhile_all p Char.isDigit r0 hall.2
    · rw [if_neg hd] at h; exact absurd h (by simp)

theorem digits1_len (s r : List Char) (h : digits1 s = some r) :
    r.length < s.length := by
  cases s with
  | nil => simp [digits1] at h
  | cons c r0 =>
    simp only [digits1] at h
    by_cases hd : c.isDigit = true
    · rw [if_pos hd] at h
      injection h with h
      subst h
      exact Nat.lt_succ_of_le (dwLen Char.isDigit r0)
    · rw [if_neg hd] at h; exact absurd h (by simp)

theorem tsCore_all (p : Char → Bool) (s r : List Char) (h : tsCore s = some r)
    (hall : s.all p = true) : r.all p = true := by
  unfold tsCore at h
  split at h
  · rename_i s2 heq1
    split at h
    · rename_i s4 heq2
      split at h
      · rename_i s6 heq3
        split at h
        · rename_i s8 heq4
          split at h
          · rename_i c s10 heq5
            split at h
            · injection h with h
              subst h
              have h1 := digits1_all p _ _ heq1 hall
              simp only [List.all_cons, Bool.and_eq_true] at h1
              have h2 := digits1_all p _ _ heq2 h1.2
              simp only [List.all_cons, Bool.and_eq_true] at h2
              have h3 := digits1_all p _ _ heq3 h2.2
              simp only [List.all_cons, Bool.and_eq_true] at h3
              have h4 := digits1_all p _ _ heq4 h3.2
              simp only [List.all_cons, Bool.and_eq_true] at h4
              have h5 := digits1_all p _ _ heq5 h4.2
              simp only [List.all_cons, Bool.and_eq_true] at h5
              exact h5.2.2.2
            · exact absurd h (by simp)
          · exact absurd h (by simp)
        · exact absurd h (by simp)
      · exact absurd h (by simp)
    · exact absurd h (by simp)
  · exact absurd h (by simp)

theorem tsCore_len (s r : List Char) (h : tsCore s = some r) :
    r.length < s.length := by
  unfold tsCore at h
  split at h
  · rename_i s2 heq1
    split at h
    · rename_i s4 heq2
      split at h
      · rename_i s6 heq3
        split at h
        · rename_i s8 heq4
          split at h
          · rename_i c s10 heq5
            split at h
            · injection h with h
              subst h
              have h1 := digits1_len _ _ heq1
              have h2 := digits1_len _ _ heq2
              have h3 := digits1_len _ _ heq3
              have h4 := digits1_len _ _ heq4
              have h5 := digits1_len _ _ heq5
              simp only [List.length_cons] at h1 h2 h3 h4 h5
              omega
            · exact absurd h (by simp)
          · exact absurd h (by simp)
        · exact absurd h (by simp)
      · exact absurd h (by simp)
    · exact absurd h (by simp)
  · exact absurd h (by simp)

theorem bodyScan_len (x : List Char) : (bodyScan x).2.length ≤ x.length := by
  induction x with
  | nil => simp [bodyScan]
  | cons c r ih =>
    by_cases hd : delimAt (c :: r) = true
    · simp [bodyScan, hd]
    · simp only [bodyScan, if_neg hd]
      exact Nat.le_succ_of_le ih

theorem msgAt_rest_len (s : List Char) (m : RawMsg) (rest : List Char)
    (h : msgAt s = some (m, rest)) : rest.length < s.length := by
  unfold msgAt at h
  split at h
  · rename_i s1
    split at h
    · rename_i s3 heq
      split at h
      · exact absurd h (by simp)
      · exact absurd h (by simp)
      · rename_i a as s4 heq1 heq2
        injection h with h
        rw [Prod.mk.injEq] at h
        have hr : rest = (bodyScan s4).2 := h.2.symm
        have h1 := tsCore_len _ _ heq
        have h2 : s4.length < s3.length + 1 := by
          have h3 : ('\n' :: s4).length ≤ s3.length := by
            rw [← heq2]; exact dwLen _ s3
          simp only [List.length_cons] at h3
          omega
        have h4 := bodyScan_len s4
        rw [hr]
        simp only [List.length_cons] at h1 ⊢
        omega
      · exact absurd h (by simp)
    · exact absurd h (by simp)
  · exact absurd h (by simp)

theorem msgAt_nonbracket (c : Char) (x : List Char) (hc : ¬c = '[') :
    msgAt (c :: x) = none := by
  unfold msgAt
  split
  · rename_i s1 heq
    injection heq with h1 h2
    exact absurd h1 hc
  · rfl

theorem msgAt_nlFree (s : List Char) (h : s.all (fun c => c ≠ '\n') = true) :
    msgAt s = none := by
  unfold msgAt
  split
  · rename_i s1
    simp only [List.all_cons, Bool.and_eq_true] at h
    split
    · rename_i s3 heq2
      have h2 := tsCore_all _ _ _ heq2 h.2
      simp only [List.all_cons, Bool.and_eq_true] at h2
      have h3 : s3.dropWhile (fun c => c ≠ '\n') = [] := dwAllTrue _ s3 h2.2.2
      rw [h3]
      cases htw : s3.takeWhile (fun c => c ≠ '\n') with
      | nil => rfl
      | cons a as => rfl
    · rfl
  · rfl

theorem findMsgsF_nil (f : Nat) : findMsgsF f [] = [] := by
  cases f <;> rfl

theorem findMsgsF_nlFree (f : Nat) (s : List Char)
    (h : s.all (fun c => c ≠ '\n') = true) : findMsgsF f s = [] := by
  induction f generalizing s with
  | zero => rfl
  | succ f0 ih =>
    cases s with
    | nil => rfl
    | cons c r =>
      simp only [findMsgsF]
      rw [msgAt_nlFree (c :: r) h]
      simp only [List.all_cons, Bool.and_eq_true] at h
      exact ih r h.2

theorem findMsgsF_fuel (f1 : Nat) : ∀ (f2 : Nat) (s : List Char),
    s.length ≤ f1 → s.length ≤ f2 → findMsgsF f1 s = findMsgsF f2 s := by
  induction f1 with
  | zero =>
    intro f2 s h1 _
    have : s = [] := List.length_eq_zero.mp (Nat.le_zero.mp h1)
    subst this
    rw [findMsgsF_nil, findMsgsF_nil]
  | succ f0 ih =>
    intro f2 s h1 h2
    cases s with
    | nil => rw [findMsgsF_nil, findMsgsF_nil]
    | cons c r =>
      cases f2 with
      | zero => simp at h2
      | succ f2' =>
        simp only [findMsgsF]
        cases hm : msgAt (c :: r) with
        | none =>
          simp only [List.length_cons] at h1 h2
          simpa using ih f2' r (by omega) (by omega)
        | some p =>
          obtain ⟨m, rest⟩ := p
          have hlt := msgAt_rest_len (c :: r) m rest hm
          simp only [List.length_cons] at h1 h2 hlt
          simpa using ih f2' rest (by omega) (by omega)

theorem findMsgsF_pre (pre : List Char) (hpre : pre.all (fun c => c ≠ '[') = true) :
    ∀ (f : Nat) (s : List Char), (pre ++ s).length ≤ f →
      findMsgsF f (pre ++ s) = findMsgsF s.length s := by
  induction pre with
  | nil =>
    intro f s h
    simp only [List.nil_append] at h ⊢
    exact findMsgsF_fuel f s.length s h (Nat.le_refl _)
  | cons c r ih =>
    intro f s h
    simp only [List.all_cons, Bool.and_eq_true] at hpre
    cases f with
    | zero => simp at h
    | succ f0 =>
      have hlen : (r ++ s).length ≤ f0 := by
        simp only [List.cons_append, List.length_cons] at h
        omega
      simp only [List.cons_append, findMsgsF, List.append_eq]
      rw [msgAt_nonbracket c (r ++ s) (by simpa using hpre.1)]
      simpa using ih hpre.2 f0 s hlen

/- ### Evaluating the segmenter on rendered documents -/

theorem digits1_render (d : List Char) (c : Char)
    (hd : d ≠ []) (hall : d.all Char.isDigit = true) (hc : c.isDigit = false) :
    ∀ t, digits1 (d ++ c :: t) = some (c :: t) := by
  intro t
  cases d with
  | nil => exact absurd rfl hd
  | cons a as =>
    simp only [List.all_cons, Bool.and_eq_true] at hall
    simp only [List.cons_append, digits1, if_pos hall.1]
    rw [dwApp Char.isDigit as c t hall.2 hc]

theorem tsCore_render (m : SrcMsg) (rest : List Char) (h : tsOK m) :
    tsCore (renderTs m ++ rest) = some rest := by
  obtain ⟨h1, h2, h3, h4, h5, h6, h7, h8, h9, h10, h11⟩ := h
  have e1 : renderTs m ++ rest
      = m.d1 ++ '/' :: (m.d2 ++ '/' :: (m.d3 ++ ' ' :: (m.hr ++ ':' :: (m.mi
        ++ ' ' :: m.ap :: 'M' :: rest)))) := by
    simp [renderTs, List.append_assoc]
  rw [e1]
  simp only [tsCore,
    digits1_render m.d1 '/' h1 h2 (by decide),
    digits1_render m.d2 '/' h3 h4 (by decide),
    digits1_render m.d3 ' ' h5 h6 (by decide),
    digits1_render m.hr ':' h7 h8 (by decide),
    digits1_render m.mi ' ' h9 h10 (by decide)]
  rcases h11 with h | h <;> simp [h]

theorem delimAt_render (m : SrcMsg) (x : List Char) (h : tsOK m) :
    delimAt ('[' :: (renderTs m ++ ']' :: x)) = true := by
  simp only [delimAt]
  rw [tsCore_render m (']' :: x) h]
  rfl

theorem delimAt_false (c : Char) (x : List Char) (hc : ¬c = '[') :
    delimAt (c :: x) = false := by
  unfold delimAt
  split
  · rename_i s1 heq
    injection heq with h1 h2
    exact absurd h1 hc
  · rfl

theorem bodyScan_render (body T : List Char)
    (hb : body.all (fun c => c ≠ '[') = true)
    (hT : T = [] ∨ delimAt T = true) :
    bodyScan (body ++ T) = (body, T) := by
  induction body with
  | nil =>
    rcases hT with h | h
    · subst h; rfl
    · cases T with
      | nil => rfl
      | cons c r => simp [bodyScan, h]
  | cons c r ih =>
    simp only [List.all_cons, Bool.and_eq_true] at hb
    have hc : ¬c = '[' := by simpa using hb.1
    have hd : delimAt (c :: (r ++ T)) = false := delimAt_false c (r ++ T) hc
    simp only [List.cons_append, bodyScan, List.append_eq, hd]
    simp [ih hb.2]

theorem msgAt_render (m : SrcMsg) (tail : List Char) (h : msgOK m)
    (htail : tail = [] ∨ delimAt tail = true) :
    msgAt (renderMsg m ++ tail) = some (toRaw m, tail) := by
  obtain ⟨hts, ha1, ha2, hb⟩ := h
  obtain ⟨a, as, hau⟩ : ∃ a as, m.author = a :: as := by
    cases hh : m.author with
    | nil => exact absurd hh ha1
    | cons a as => exact ⟨a, as, rfl⟩
  rw [hau] at ha2
  have e1 : renderMsg m ++ tail
      = '[' :: (renderTs m ++ ']' :: ' ' :: ((a :: as) ++ '\n' :: (m.body ++ tail))) := by
    simp [renderMsg, renderDelimLine, List.append_assoc, hau]
  have htw : ((a :: as) ++ '\n' :: (m.body ++ tail)).takeWhile (fun c => c ≠ '\n')
      = a :: as := twApp _ _ '\n' _ ha2 (by simp)
  have hdw : ((a :: as) ++ '\n' :: (m.body ++ tail)).dropWhile (fun c => c ≠ '\n')
      = '\n' :: (m.body ++ tail) := dwApp _ _ '\n' _ ha2 (by simp)
  have hbs := bodyScan_render m.body tail hb htail
  have hlen2 : (renderTs m ++ ']' :: ' ' :: ((a :: as) ++ '\n' :: (m.body ++ tail))).length
      - (']' :: ' ' :: ((a :: as) ++ '\n' :: (m.body ++ tail))).length
      = (renderTs m).length := by simp
  rw [e1]
  simp only [msgAt]
  rw [tsCore_render m (']' :: ' ' :: ((a :: as) ++ '\n' :: (m.body ++ tail))) hts]
  simp only [htw, hdw, hbs, hlen2]
  rw [show (renderTs m ++ ']' :: ' ' :: ((a :: as) ++ '\n' :: (m.body ++ tail))).take
      (renderTs m).length = renderTs m from takeLenApp _ _]
  simp [toRaw, hau]

theorem renderMsgs_tail_ok (rest : List SrcMsg) (T : List Char)
    (hok : ∀ m ∈ rest, msgOK m)
    (hT : T = [] ∨ (delimAt T = true ∧ T.all (fun c => c ≠ '\n') = true)) :
    renderMsgs rest ++ T = [] ∨ delimAt (renderMsgs rest ++ T) = true := by
  cases rest with
  | nil =>
    rcases hT with h | h
    · subst h; exact Or.inl rfl
    · exact Or.inr h.1
  | cons m2 rest2 =>
    right
    have hts : tsOK m2 := (hok m2 (List.mem_cons_self _ _)).1
    have e1 : renderMsgs (m2 :: rest2) ++ T
        = '[' :: (renderTs m2 ++ ']' :: (' ' :: m2.author
          ++ '\n' :: m2.body ++ renderMsgs rest2 ++ T)) := by
      simp [renderMsgs, renderMsg, renderDelimLine, List.append_assoc]
    rw [e1]
    exact delimAt_render m2 _ hts

theorem findMsgs_render (msgs : List SrcMsg) (T : List Char)
    (hok : ∀ m ∈ msgs, msgOK m)
    (hT : T = [] ∨ (delimAt T = true ∧ T.all (fun c => c ≠ '\n') = true)) :
    ∀ f, (renderMsgs msgs ++ T).length ≤ f →
      findMsgsF f (renderMsgs msgs ++ T) = msgs.map toRaw := by
  induction msgs with
  | nil =>
    intro f _
    simp only [renderMsgs, List.nil_append, List.map_nil]
    rcases hT with h | h
    · subst h; exact findMsgsF_nil f
    · exact findMsgsF_nlFree f T h.2
  | cons m rest ih =>
    intro f hf
    have hokm : msgOK m := hok m (List.mem_cons_self _ _)
    have hokr : ∀ m2 ∈ rest, msgOK m2 := fun m2 hm2 => hok m2 (List.mem_cons_of_mem _ hm2)
    have htail := renderMsgs_tail_ok rest T hokr hT
    have hmsg : msgAt (renderMsg m ++ (renderMsgs rest ++ T))
        = some (toRaw m, renderMsgs rest ++ T) :=
      msgAt_render m (renderMsgs rest ++ T) hokm htail
    have e1 : renderMsgs (m :: rest) ++ T = renderMsg m ++ (renderMsgs rest ++ T) := by
      simp [renderMsgs, List.append_assoc]
    have e2 : renderMsg m ++ (renderMsgs rest ++ T)
        = '[' :: (renderTs m ++ ']' :: ' ' :: (m.author
          ++ '\n' :: (m.body ++ (renderMsgs rest ++ T)))) := by
      simp [renderMsg, renderDelimLine, List.append_assoc]
    rw [e1] at hf ⊢
    cases f with
    | zero =>
      rw [e2] at hf
      simp at hf
    | succ f0 =>
      rw [e2]
      simp only [findMsgsF]
      rw [← e2, hmsg]
      have hlen : (renderMsgs rest ++ T).length ≤ f0 := by
        rw [e2] at hf
        simp only [List.length_cons, List.length_append] at hf ⊢
        omega
      simpa using ih hokr f0 hlen

/- ### Counting delimiter lines of rendered documents -/

theorem all_imp (p q : Char → Bool) (l : List Char)
    (h : ∀ c, p c = true → q c = true) (hl : l.all p = true) : l.all q = true := by
  induction l with
  | nil => rfl
  | cons c r ih =>
    simp only [List.all_cons, Bool.and_eq_true] at hl ⊢
    exact ⟨h c hl.1, ih hl.2⟩

theorem delimAt_bracketFree (l : List Char) (h : l.all (fun c => c ≠ '[') = true) :
    delimAt l = false := by
  cases l with
  | nil => rfl
  | cons c r =>
    simp only [List.all_cons, Bool.and_eq_true] at h
    exact delimAt_false c r (by simpa using h.1)

theorem filter_delim_nil (ls : List (List Char))
    (h : ∀ l ∈ ls, delimAt l = false) : ls.filter (fun l => delimAt l) = [] := by
  induction ls with
  | nil => rfl
  | cons l ls2 ih =>
    have h1 := h l (List.mem_cons_self _ _)
    simp only [List.filter, h1]
    exact ih (fun l2 hl2 => h l2 (List.mem_cons_of_mem _ hl2))

theorem getLast_decomp (l : List Char) (c : Char) (h : l.getLast? = some c) :
    ∃ l', l = l' ++ [c] := by
  induction l with
  | nil => simp at h
  | cons a r ih =>
    cases r with
    | nil =>
      simp only [List.getLast?_singleton] at h
      injection h with h
      exact ⟨[], by simp [h]⟩
    | cons b rs =>
      rw [List.getLast?_cons_cons] at h
      obtain ⟨l', hl'⟩ := ih h
      exact ⟨a :: l', by rw [List.cons_append, ← hl']⟩

theorem renderTs_nlFree (m : SrcMsg) (h : tsOK m) :
    (renderTs m).all (fun c => c ≠ '\n') = true := by
  obtain ⟨h1, h2, h3, h4, h5, h6, h7, h8, h9, h10, h11⟩ := h
  have hd : ∀ c : Char, c.isDigit = true → (fun c => decide (c ≠ '\n')) c = true := by
    intro c hc
    simp only [decide_eq_true_eq]
    intro he
    subst he
    simp [Char.isDigit] at hc
  simp only [renderTs, List.all_append, List.all_cons, List.all_nil, Bool.and_eq_true]
  repeat' apply And.intro
  all_goals first
    | exact all_imp _ _ _ hd h2
    | exact all_imp _ _ _ hd h4
    | exact all_imp _ _ _ hd h6
    | exact all_imp _ _ _ hd h8
    | exact all_imp _ _ _ hd h10
    | (rcases h11 with h | h <;> simp [h])

theorem renderDelimLine_nlFree (m : SrcMsg) (hts : tsOK m)
    (ha : m.author.all (fun c => c ≠ '\n') = true) :
    (renderDelimLine m).all (fun c => c ≠ '\n') = true := by
  simp only [renderDelimLine, List.all_cons, List.all_append, Bool.and_eq_true]
  repeat' apply And.intro
  all_goals first
    | exact renderTs_nlFree m hts
    | exact ha
    | decide

theorem renderDelimLine_delim (m : SrcMsg) (hts : tsOK m) :
    delimAt (renderDelimLine m) = true := by
  have e : renderDelimLine m = '[' :: (renderTs m ++ ']' :: (' ' :: m.author)) := by
    simp [renderDelimLine]
  rw [e]
  exact delimAt_render m (' ' :: m.author) hts

theorem countRender (msgs : List SrcMsg)
    (hok : ∀ m ∈ msgs, msgOK m)
    (hend : ∀ m ∈ msgs, m.body = [] ∨ m.body.getLast? = some '\n') :
    ((splitNl (renderMsgs msgs)).filter (fun l => delimAt l)).length = msgs.length := by
  induction msgs with
  | nil => simp [renderMsgs, splitNl, List.filter, delimAt]
  | cons m rest ih =>
    have hokm := hok m (List.mem_cons_self _ _)
    have hokr : ∀ m2 ∈ rest, msgOK m2 := fun m2 hm2 => hok m2 (List.mem_cons_of_mem _ hm2)
    have hendr : ∀ m2 ∈ rest, m2.body = [] ∨ m2.body.getLast? = some '\n' :=
      fun m2 hm2 => hend m2 (List.mem_cons_of_mem _ hm2)
    have e1 : renderMsgs (m :: rest)
        = renderDelimLine m ++ '\n' :: (m.body ++ renderMsgs rest) := by
      simp [renderMsgs, renderMsg, List.append_assoc]
    rw [e1, splitNl_append]
    have hdl : splitNl (renderDelimLine m) = [renderDelimLine m] :=
      splitNl_nlFree _ (renderDelimLine_nlFree m hokm.1 hokm.2.2.1)
    rw [hdl]
    rcases hend m (List.mem_cons_self _ _) with hb | hb
    · rw [hb]
      simp only [List.nil_append, List.singleton_append, List.filter,
        renderDelimLine_delim m hokm.1]
      simp [ih hokr hendr]
    · obtain ⟨b', hb'⟩ := getLast_decomp m.body '\n' hb
      rw [hb']
      have e2 : (b' ++ ['\n']) ++ renderMsgs rest = b' ++ '\n' :: renderMsgs rest := by
        simp [List.append_assoc]
      rw [e2, splitNl_append]
      have hbf : b'.all (fun c => c ≠ '[') = true := by
        have := hokm.2.2.2
        rw [hb'] at this
        simp only [List.all_append, Bool.and_eq_true] at this
        exact this.1
      have hflt : (splitNl b').filter (fun l => delimAt l) = [] := by
        apply filter_delim_nil
        intro l hl
        exact delimAt_bracketFree l (splitNl_all _ b' hbf l hl)
      simp only [List.singleton_append, List.filter_cons, List.filter_append,
        renderDelimLine_delim m hokm.1, hflt]
      simp [ih hokr hendr]

/- ### The full parse of a rendered document -/

theorem findMsgs_full (pre : List Char) (msgs : List SrcMsg) (T : List Char)
    (hpre : pre.all (fun c => c ≠ '[') = true)
    (hok : ∀ m ∈ msgs, msgOK m)
    (hT : T = [] ∨ (delimAt T = true ∧ T.all (fun c => c ≠ '\n') = true)) :
    findMsgs (pre ++ (renderMsgs msgs ++ T)) = msgs.map toRaw := by
  unfold findMsgs
  rw [findMsgsF_pre pre hpre _ _ (Nat.le_refl _)]
  exact findMsgs_render msgs T hok hT _ (Nat.le_refl _)

/- ### Evaluating the field extractor on structured bodies -/

theorem dwConsNeg (p : Char → Bool) (c : Char) (l : List Char) (hc : p c = false) :
    (c :: l).dropWhile p = c :: l := by
  simp [List.dropWhile, hc]

theorem attScanF_nil (f : Nat) : attScanF f [] = [] := by
  cases f <;> rfl

theorem attScanF_cons_hit (f : Nat) (s : List Char) (u' : List Char)
    (h : attAt s = some (u', [])) (hs : s ≠ []) :
    attScanF (f + 1) s = [u'] := by
  cases s with
  | nil => exact absurd rfl hs
  | cons c r =>
    simp only [attScanF, h]
    simp [attScanF_nil]

theorem attAt_simple (u : List Char) (hu1 : u ≠ [])
    (hu2 : u.all (fun c => c ≠ '\n') = true) :
    attAt (mAtt ++ '\n' :: (httpsLit ++ u)) = some (httpsLit ++ u, []) := by
  have e1 : wsRun1 ('\n' :: (httpsLit ++ u)) = some (httpsLit ++ u) := by
    simp only [wsRun1, if_pos (by decide : isWsC '\n' = true)]
    rw [show httpsLit ++ u = 'h' :: (['t', 't', 'p', 's', ':', '/', '/'] ++ u) from rfl]
    rw [dwConsNeg isWsC 'h' _ (by decide)]
  cases u with
  | nil => exact absurd rfl hu1
  | cons a as =>
    simp only [attAt, dropPfx_self_app, e1, twAllTrue _ (a :: as) hu2,
      dwAllTrue _ (a :: as) hu2]

theorem extractAtts_simple (u : List Char) (hu1 : u ≠ [])
    (hu2 : u.all (fun c => c ≠ '\n') = true) :
    extractAtts (mAtt ++ '\n' :: (httpsLit ++ u)) = [httpsLit ++ u] := by
  unfold extractAtts
  have hne : mAtt ++ '\n' :: (httpsLit ++ u) ≠ [] := by simp [mAtt]
  have hlen : (mAtt ++ '\n' :: (httpsLit ++ u)).length
      = ((mAtt ++ '\n' :: (httpsLit ++ u)).length - 1) + 1 := by
    cases hc : mAtt ++ '\n' :: (httpsLit ++ u) with
    | nil => exact absurd hc hne
    | cons c r => simp
  rw [hlen]
  exact attScanF_cons_hit _ _ _ (attAt_simple u hu1 hu2) hne

theorem skipToB_cons_step (c : Char) (r : List Char)
    (h : boundaryAt (c :: r) = false) : skipToB (c :: r) = skipToB r := by
  simp only [skipToB, h]
  simp

theorem skipToB_nlFree (x : List Char) (h : x.all (fun c => c ≠ '\n') = true) :
    skipToB x = [] := by
  induction x with
  | nil => rfl
  | cons c r ih =>
    simp only [List.all_cons, Bool.and_eq_true] at h
    have hc : ¬c = '\n' := by simpa using h.1
    rw [skipToB_cons_step c r (boundaryAt_false_cons c r hc)]
    exact ih h.2

theorem subMF_head (m z : List Char) (f : Nat) (hm : m ≠ []) :
    subMF m (f + 1) (m ++ z) = subMF m f (skipToB z) := by
  cases hc : m ++ z with
  | nil =>
    cases m with
    | nil => exact absurd rfl hm
    | cons a as => simp at hc
  | cons c r =>
    have h1 : isPfx m (c :: r) = true := by rw [← hc]; exact isPfx_self_app m z
    have h2 : List.drop m.length (c :: r) = z := by rw [← hc]; exact dropLenApp m z
    simp only [subMF, h1, if_pos, h2]

theorem subMarker_all_consumed (m z : List Char) (hm : m ≠ [])
    (hz : skipToB z = []) : subMarker m (m ++ z) = [] := by
  unfold subMarker
  have hlen : (m ++ z).length = ((m ++ z).length - 1) + 1 := by
    cases m with
    | nil => exact absurd rfl hm
    | cons a as => simp
  rw [hlen, subMF_head m z _ hm, hz, subMF_nil]

theorem cleanText_simple (u : List Char)
    (hu2 : u.all (fun c => c ≠ '\n') = true) :
    cleanText (mAtt ++ '\n' :: (httpsLit ++ u)) = [] := by
  have hz : skipToB ('\n' :: (httpsLit ++ u)) = [] := by
    have hb : boundaryAt ('\n' :: (httpsLit ++ u)) = false := by
      rw [show httpsLit ++ u = 'h' :: (['t', 't', 'p', 's', ':', '/', '/'] ++ u) from rfl]
      simp [boundaryAt]
    rw [skipToB_cons_step _ _ hb]
    apply skipToB_nlFree
    rw [List.all_append]
    simp only [Bool.and_eq_true]
    exact ⟨by decide, hu2⟩
  have hc1 : subMarker mAtt (mAtt ++ '\n' :: (httpsLit ++ u)) = [] :=
    subMarker_all_consumed mAtt _ (by decide) hz
  simp only [cleanText]
  rw [hc1]
  decide

theorem wsRun1_nl (w : List Char) (hw : ∀ c, w.head? = some c → isWsC c = false) :
    wsRun1 ('\n' :: w) = some w := by
  simp only [wsRun1, if_pos (by decide : isWsC '\n' = true)]
  cases w with
  | nil => rfl
  | cons a as => rw [dwConsNeg isWsC a as (hw a rfl)]

theorem sectionAt_start (mk x y : List Char)
    (hx : x.all (fun c => c ≠ '[') = true)
    (hxh : ∀ c, x.head? = some c → isWsC c = false) :
    sectionAt mk (mk ++ '\n' :: (x ++ '[' :: y)) = some x := by
  unfold sectionAt
  simp only [dropPfx_self_app]
  have hh : ∀ c, (x ++ '[' :: y).head? = some c → isWsC c = false := by
    intro c hc
    cases x with
    | nil =>
      simp only [List.nil_append, List.head?_cons] at hc
      injection hc with hc
      rw [← hc]
      decide
    | cons a as =>
      simp only [List.cons_append, List.head?_cons] at hc
      injection hc with hc
      rw [← hc]
      exact hxh a rfl
  simp only [wsRun1_nl _ hh, twApp _ x '[' y hx (by decide)]

theorem sectionAt_start_end (mk x : List Char)
    (hx : x.all (fun c => c ≠ '[') = true)
    (hxh : ∀ c, x.head? = some c → isWsC c = false) :
    sectionAt mk (mk ++ '\n' :: x) = some x := by
  unfold sectionAt
  simp only [dropPfx_self_app, wsRun1_nl _ hxh, twAllTrue _ x hx]

theorem sectionSearch_cons (mk : List Char) (c : Char) (r g : List Char)
    (h : sectionAt mk (c :: r) = some g) :
    sectionSearch mk (c :: r) = some g := by
  simp only [sectionSearch, h]

theorem extractEmbeds_eq (z g : List Char) (h : sectionAt mEmb (mEmb ++ z) = some g) :
    extractEmbeds (mEmb ++ z)
      = ((splitNl (stripWs g)).map stripWs).filter (fun l => l ≠ []) := by
  unfold extractEmbeds
  rw [show mEmb ++ z = '\x7b' :: (['E', 'm', 'b', 'e', 'd', '\x7d'] ++ z) from rfl] at h ⊢
  rw [sectionSearch_cons mEmb _ _ g h]

theorem extractReactions_eq (z g : List Char) (h : sectionAt mRea (mRea ++ z) = some g) :
    extractReactions (mRea ++ z)
      = ((splitNl g).map stripWs).filter (fun l => l ≠ []) := by
  unfold extractReactions
  rw [show mRea ++ z
      = '\x7b' :: (['R', 'e', 'a', 'c', 't', 'i', 'o', 'n', 's', '\x7d'] ++ z) from rfl] at h ⊢
  rw [sectionSearch_cons mRea _ _ g h]

/- ### Concrete documents used by the claim theorems -/

def docC1 : List Char :=
  ("[1/1/2021 1:00 PM] A\nhi\n[1/1/2021 1:01 PM] B\n\x7bEmbed\x7d\nzzz").toList

def docC2 : List Char :=
  ("[1/1/2021 1:00 PM] A\n\x7bAttachments\x7d\nhttps://a.png\nhttps://b.png").toList

def docScenB : List Char :=
  ("[1/2/2023 3:04 PM] Alice\nhello\n\x7bAttachments\x7d\nhttps://example.com/a.png").toList

def docC3 : List Char :=
  ("[1/1/2021 1:00 PM] A\n\x7bEmbed\x7d\nhello [world]\nmore").toList

def docC4w : List Char :=
  ("[1/1/2021 1:00 PM] A\nhi there\n\x7bReactions\x7d\nx (1)").toList

def recC4w : MessageRecord :=
  ((parseDiscordData docC4w).1).headD ⟨[], [], [], ⟨[], [], [], none, none⟩⟩

def preC5 : List Char :=
  ("==========\nGuild: G\nChannel: c\nTopic: t\n==========\n").toList

def msgsC5 : List SrcMsg :=
  [⟨("1").toList, ("2").toList, ("2023").toList, ("3").toList, ("04").toList, 'P',
    ("Alice").toList, ("hi\n").toList⟩,
   ⟨("1").toList, ("2").toList, ("2023").toList, ("3").toList, ("05").toList, 'P',
    ("Bob").toList, ("yo\n").toList⟩]

def docScenA : List Char :=
  ("==========\nGuild: TestGuild\nChannel: General / chat\nTopic: none\n==========\n[1/2/2023 3:04 PM] Alice\nhello world").toList

def recScenA : MessageRecord :=
  ⟨("2023-01-02T15:04:00").toList, ("Alice").toList, ("hello world").toList,
    ⟨[], [], [], some ("chat").toList, some ("TestGuild").toList⟩⟩

def docC7 : List Char := ("[99/99/9999 1:00 PM] Bob\nhi").toList

def docC8 : List Char := ("xx [1/2/2023 3:04 PM] Alice\nhi").toList

def preC8 : List Char := ("xx ").toList

def msgsC8 : List SrcMsg :=
  [⟨("1").toList, ("2").toList, ("2023").toList, ("3").toList, ("04").toList, 'P',
    ("Alice").toList, ("hi").toList⟩]

def docC9 : List Char :=
  ("==========\nGuild: TG\nChannel: General / chat\nTopic: t\n==========\n").toList

def preC10 : List Char := ("intro\n").toList

def msgsC10 : List SrcMsg :=
  [⟨("1").toList, ("2").toList, ("2023").toList, ("3").toList, ("04").toList, 'P',
    ("Alice").toList, ("hi\n").toList⟩]

def finalC10 : SrcMsg :=
  ⟨("1").toList, ("2").toList, ("2023").toList, ("9").toList, ("59").toList, 'A',
    ("Last").toList, []⟩

/- ### Claim theorems -/

/-- C1 (counterexample): it is NOT the case that every record's embed and
reaction lists come from scanning the whole original document (the variable
that held the unsegmented text): in `docC1` the first message has no embeds
even though a global first-match scan of the document finds one. -/
theorem c1_counterexample :
    ¬ (∀ r ∈ (parseDiscordData docC1).1,
        r.metadata.embeds = extractEmbeds docC1 ∧
        r.metadata.reactions = extractReactions docC1) := by
  decide

/-- C1 (amended): the loop rebinds the scanned variable to the regex match's
chunk body, so embed and reaction extraction is scoped to the per-chunk
body bound by that iteration's match, not globally first-match-only. -/
theorem c1_amended_per_chunk_scan (content : List Char) :
    ((parseDiscordData content).1).map (fun r => r.metadata.embeds)
      = (findMsgs content).map (fun m => extractEmbeds m.body) ∧
    ((parseDiscordData content).1).map (fun r => r.metadata.reactions)
      = (findMsgs content).map (fun m => extractReactions m.body) := by
  constructor <;> simp [parseDiscordData, mkRecord, List.map_map]

/-- C2 (counterexample): a body with one Attachments marker followed by two
URL lines yields only the first URL, not one entry per URL line. -/
theorem c2_counterexample :
    (parseDiscordData docC2).1.map (fun r => r.metadata.attachments)
      = [[("https://a.png").toList]] ∧
    ¬ (parseDiscordData docC2).1.map (fun r => r.metadata.attachments)
      = [[("https://a.png").toList, ("https://b.png").toList]] := by
  constructor <;> decide

/-- C2 (amended): each Attachments marker contributes only the FIRST
following URL line as an entry; the single-URL Scenario B behaves as the
claim states: the URL is the sole attachment and is absent from the text. -/
theorem c2_amended_first_url :
    (∀ u, u ≠ [] → u.all (fun c => c ≠ '\n') = true →
      extractAtts (mAtt ++ '\n' :: (httpsLit ++ u)) = [httpsLit ++ u] ∧
      cleanText (mAtt ++ '\n' :: (httpsLit ++ u)) = []) ∧
    (parseDiscordData docScenB).1.map (fun r => (r.metadata.attachments, r.text))
      = [([("https://example.com/a.png").toList], ("hello").toList)] ∧
    (∀ r ∈ (parseDiscordData docScenB).1,
      occursIn (("https://example.com/a.png").toList) r.text = false) := by
  refine ⟨fun u hu1 hu2 => ⟨extractAtts_simple u hu1 hu2, cleanText_simple u hu2⟩,
    by decide, by decide⟩

/-- C2 (witness): the amended theorem applied at the Scenario B URL. -/
theorem c2_witness :
    extractAtts (mAtt ++ '\n' :: (httpsLit ++ ("example.com/a.png").toList))
      = [httpsLit ++ ("example.com/a.png").toList] ∧
    cleanText (mAtt ++ '\n' :: (httpsLit ++ ("example.com/a.png").toList)) = [] :=
  c2_amended_first_url.1 (("example.com/a.png").toList) (by decide) (by decide)

/-- C3 (counterexample): the embed section stops at the next `[` character,
not at the next message-delimiter-shaped boundary: with body
`Embed / hello [world] / more` the embeds list is `["hello"]` rather than
the two non-blank lines of the rest of the chunk. -/
theorem c3_counterexample :
    (parseDiscordData docC3).1.map (fun r => r.metadata.embeds)
      = [[("hello").toList]] ∧
    ¬ (parseDiscordData docC3).1.map (fun r => r.metadata.embeds)
      = [[("hello [world]").toList, ("more").toList]] := by
  constructor <;> decide

/-- C3 (amended): the first marked section extends from the marker to the
next `[` character (or the end of the chunk); every non-blank line of that
section is taken, stripped, in order. -/
theorem c3_amended_bracket_boundary :
    (∀ x y : List Char, x.all (fun c => c ≠ '[') = true →
      (∀ c, x.head? = some c → isWsC c = false) →
      extractEmbeds (mEmb ++ '\n' :: (x ++ '[' :: y))
        = ((splitNl (stripWs x)).map stripWs).filter (fun l => l ≠ []) ∧
      extractReactions (mRea ++ '\n' :: (x ++ '[' :: y))
        = ((splitNl x).map stripWs).filter (fun l => l ≠ []) ∧
      extractEmbeds (mEmb ++ '\n' :: x)
        = ((splitNl (stripWs x)).map stripWs).filter (fun l => l ≠ [])) ∧
    (parseDiscordData docC3).1.map (fun r => r.metadata.embeds)
      = [[("hello").toList]] := by
  refine ⟨fun x y hx hxh => ⟨?_, ?_, ?_⟩, by decide⟩
  · exact extractEmbeds_eq _ x (sectionAt_start mEmb x y hx hxh)
  · exact extractReactions_eq _ x (sectionAt_start mRea x y hx hxh)
  · exact extractEmbeds_eq _ x (sectionAt_start_end mEmb x hx hxh)

/-- C3 (witness): the amended theorem applied at a concrete section body. -/
theorem c3_witness :
    extractEmbeds (mEmb ++ '\n' :: (("hello\nworld").toList ++ '[' :: ("zzz").toList))
      = ((splitNl (stripWs ("hello\nworld").toList)).map stripWs).filter
          (fun l => l ≠ []) ∧
    extractReactions (mRea ++ '\n' :: (("hello\nworld").toList ++ '[' :: ("zzz").toList))
      = ((splitNl ("hello\nworld").toList).map stripWs).filter (fun l => l ≠ []) ∧
    extractEmbeds (mEmb ++ '\n' :: ("hello\nworld").toList)
      = ((splitNl (stripWs ("hello\nworld").toList)).map stripWs).filter
          (fun l => l ≠ []) :=
  c3_amended_bracket_boundary.1 (("hello\nworld").toList) (("zzz").toList)
    (by decide) (by decide)

/-- C4: for every document and every record the parser produces, the
record's text contains none of the literal markers for attachments,
embeds or reactions. -/
theorem c4_text_marker_free (content : List Char) (r : MessageRecord)
    (h : r ∈ (parseDiscordData content).1) :
    occursIn mAtt r.text = false ∧ occursIn mEmb r.text = false ∧
    occursIn mRea r.text = false := by
  simp only [parseDiscordData, List.mem_map] at h
  obtain ⟨m, hm, hr⟩ := h
  rw [← hr]
  exact cleanText_marker_free m.body

/-- C4 (witness): the theorem applied to the record of a concrete parse. -/
theorem c4_witness :
    occursIn mAtt recC4w.text = false ∧ occursIn mEmb recC4w.text = false ∧
    occursIn mRea recC4w.text = false :=
  c4_text_marker_free docC4w recC4w (by decide)

/-- C5: for well-formed documents (a bracket-free preamble ending at a line
boundary, messages with valid delimiter lines, bracket-free bodies ending
at line boundaries), the number of records equals the number of
timestamp-delimiter lines; with no messages both are zero and the parse
still returns a value (no error). -/
theorem c5_record_count (pre : List Char) (msgs : List SrcMsg)
    (h1 : pre.all (fun c => c ≠ '[') = true)
    (h2 : pre = [] ∨ pre.getLast? = some '\n')
    (h3 : ∀ m ∈ msgs, msgOK m)
    (h4 : ∀ m ∈ msgs, m.body = [] ∨ m.body.getLast? = some '\n') :
    ((parseDiscordData (pre ++ renderMsgs msgs)).1).length = msgs.length ∧
    delimLineCount (pre ++ renderMsgs msgs) = msgs.length := by
  constructor
  · have hfull := findMsgs_full pre msgs [] h1 h3 (Or.inl rfl)
    rw [List.append_nil] at hfull
    simp [parseDiscordData, hfull]
  · unfold delimLineCount
    rcases h2 with h | h
    · subst h
      simpa using countRender msgs h3 h4
    · obtain ⟨p', hp'⟩ := getLast_decomp pre '\n' h
      rw [hp']
      have e : (p' ++ ['\n']) ++ renderMsgs msgs = p' ++ '\n' :: renderMsgs msgs := by
        simp [List.append_assoc]
      rw [e, splitNl_append]
      have hpf : p'.all (fun c => c ≠ '[') = true := by
        rw [hp'] at h1
        simp only [List.all_append, Bool.and_eq_true] at h1
        exact h1.1
      have hflt : (splitNl p').filter (fun l => delimAt l) = [] :=
        filter_delim_nil _
          (fun l hl => delimAt_bracketFree l (splitNl_all _ p' hpf l hl))
      rw [List.filter_append, hflt]
      simpa using countRender msgs h3 h4

/-- C5 (witness): the theorem applied to a concrete two-message document. -/
theorem c5_witness :
    ((parseDiscordData (preC5 ++ renderMsgs msgsC5)).1).length = msgsC5.length ∧
    delimLineCount (preC5 ++ renderMsgs msgsC5) = msgsC5.length :=
  c5_record_count preC5 msgsC5 (by decide) (by decide) (by decide) (by decide)

/-- C6: Scenario A — parsing the banner plus the single message
`[1/2/2023 3:04 PM] Alice / hello world` yields exactly one record with
author Alice, text `hello world`, guild TestGuild, channel `chat` (the text
after the last ` / ` of the channel value), and the ISO timestamp
`2023-01-02T15:04:00`. -/
theorem c6_scenario_a :
    (parseDiscordData docScenA).1 = [recScenA] ∧
    (parseDiscordData docScenA).2 =
      ⟨some ("TestGuild").toList, some ("chat").toList, some ("none").toList⟩ := by
  constructor <;> decide

/-- C7: timestamps that parse as month/day/year hour:minute AM|PM are
emitted in ISO-8601 form; those that do not are emitted verbatim, with no
error — every record's timestamp is exactly `formatTimestamp` of its
literal, and the unparseable literal `99/99/9999 1:00 PM` passes through
unchanged. -/
theorem c7_timestamp_fallback :
    (∀ s t, strptimeMDY s = some t → formatTimestamp s = isoOf t) ∧
    (∀ s, strptimeMDY s = none → formatTimestamp s = s) ∧
    (∀ content, ((parseDiscordData content).1).map (fun r => r.timestamp)
      = (findMsgs content).map (fun m => formatTimestamp m.ts)) ∧
    strptimeMDY (("99/99/9999 1:00 PM").toList) = none ∧
    (parseDiscordData docC7).1.map (fun r => r.timestamp)
      = [("99/99/9999 1:00 PM").toList] := by
  refine ⟨?_, ?_, ?_, by decide, by decide⟩
  · intro s t h
    unfold formatTimestamp
    rw [h]
  · intro s h
    unfold formatTimestamp
    rw [h]
  · intro content
    simp [parseDiscordData, mkRecord, List.map_map]

/-- C7 (witness): the theorem applied at an unparseable and at a parseable
timestamp literal. -/
theorem c7_witness :
    formatTimestamp (("99/99/9999 1:00 PM").toList) = ("99/99/9999 1:00 PM").toList ∧
    formatTimestamp (("1/2/2023 3:04 PM").toList) = ("2023-01-02T15:04:00").toList := by
  constructor
  · exact c7_timestamp_fallback.2.1 _ (by decide)
  · rw [c7_timestamp_fallback.1 (("1/2/2023 3:04 PM").toList) ⟨2023, 1, 2, 15, 4⟩
      (by decide)]
    decide

/-- C8 (counterexample): a delimiter occurring mid-line does start a chunk:
`docC8` has no line beginning with a bracketed timestamp, yet one record is
produced (with author Alice), so chunks are NOT begun only by delimiter
patterns at line starts. -/
theorem c8_counterexample :
    (parseDiscordData docC8).1.map (fun r => r.author) = [("Alice").toList] ∧
    delimLineCount docC8 = 0 := by
  constructor <;> decide

/-- C8 (amended): the segmenter produces one chunk per occurrence of the
delimiter pattern followed by `] `, a non-empty author and a newline,
wherever in a line that occurrence sits (the preamble need not end with a
newline); each chunk carries the matched timestamp, author and the body up
to the next delimiter occurrence or end of document. -/
theorem c8_amended_midline_delims (pre : List Char) (msgs : List SrcMsg)
    (h1 : pre.all (fun c => c ≠ '[') = true)
    (h3 : ∀ m ∈ msgs, msgOK m) :
    findMsgs (pre ++ renderMsgs msgs) = msgs.map toRaw ∧
    (parseDiscordData (pre ++ renderMsgs msgs)).1.map (fun r => r.author)
      = msgs.map (fun m => m.author) := by
  have hfull := findMsgs_full pre msgs [] h1 h3 (Or.inl rfl)
  rw [List.append_nil] at hfull
  refine ⟨hfull, ?_⟩
  simp [parseDiscordData, hfull, List.map_map, mkRecord, toRaw]

/-- C8 (witness): the amended theorem applied with a preamble that ends
mid-line, so the single delimiter occurrence is not at a line start. -/
theorem c8_witness :
    findMsgs (preC8 ++ renderMsgs msgsC8) = msgsC8.map toRaw ∧
    (parseDiscordData (preC8 ++ renderMsgs msgsC8)).1.map (fun r => r.author)
      = msgsC8.map (fun m => m.author) :=
  c8_amended_midline_delims preC8 msgsC8 (by decide) (by decide)

/-- C9 (counterexample): when the banner is found, the channel field is NOT
always the captured value: with channel value `General / chat` the stored
field is `chat`. -/
theorem c9_counterexample :
    headerSearch docC9
      = some (("TG").toList, ("General / chat").toList, ("t").toList) ∧
    (parseDiscordData docC9).2.channel = some (("chat").toList) ∧
    ¬ (parseDiscordData docC9).2.channel = some (("General / chat").toList) := by
  refine ⟨by decide, by decide, by decide⟩

/-- C9 (amended): when the banner is not found all three metadata fields
are none and no error is raised; when it is found, guild and topic are the
captured values and channel is the captured value's segment after its last
` / ` separator (the captured value itself when no separator occurs). -/
theorem c9_amended_header_fields (content : List Char) :
    (headerSearch content = none →
      (parseDiscordData content).2 = ⟨none, none, none⟩) ∧
    (∀ g ch t, headerSearch content = some (g, ch, t) →
      (parseDiscordData content).2 = ⟨some g, some (chanLast ch), some t⟩) := by
  constructor
  · intro h
    simp [parseDiscordData, docMeta, h]
  · intro g ch t h
    simp [parseDiscordData, docMeta, h]

/-- C9 (witness): the amended theorem applied to a document without a
banner. -/
theorem c9_witness : (parseDiscordData (("hello").toList)).2 = ⟨none, none, none⟩ :=
  (c9_amended_header_fields (("hello").toList)).1 (by decide)

/-- C10: when the final delimiter line is the last line of the file with no
trailing newline, it produces no record: the parse of a document ending in
such a bare delimiter line yields exactly the records of the preceding
messages. -/
theorem c10_final_delimiter_dropped (pre : List Char) (msgs : List SrcMsg)
    (fm : SrcMsg)
    (h1 : pre.all (fun c => c ≠ '[') = true)
    (h3 : ∀ m ∈ msgs, msgOK m)
    (h5 : tsOK fm)
    (h6 : fm.author.all (fun c => c ≠ '\n') = true) :
    (parseDiscordData (pre ++ (renderMsgs msgs ++ renderDelimLine fm))).1.length
      = msgs.length := by
  have hT : renderDelimLine fm = [] ∨ (delimAt (renderDelimLine fm) = true ∧
      (renderDelimLine fm).all (fun c => c ≠ '\n') = true) :=
    Or.inr ⟨renderDelimLine_delim fm h5, renderDelimLine_nlFree fm h5 h6⟩
  have hfull := findMsgs_full pre msgs (renderDelimLine fm) h1 h3 hT
  simp [parseDiscordData, hfull]

/-- C10 (witness): the theorem applied to a document whose last line is a
bare delimiter line with no trailing newline. -/
theorem c10_witness :
    (parseDiscordData
      (preC10 ++ (renderMsgs msgsC10 ++ renderDelimLine finalC10))).1.length
      = msgsC10.length :=
  c10_final_delimiter_dropped preC10 msgsC10 finalC10
    (by decide) (by decide) (by decide) (by decide)
